import Mathlib

/-!
Formal model of the wayfinding core (`src/core/pathfinding.js`):
the `WayfindingGraph` data structure, the routing predicate
`canVisitNeighbor`, the constrained BFS `findPath`, the multi-path
search `findMultiplePaths`, and `getStatistics`, together with
correctness theorems about them.

Modelling conventions:
* JS `Set`s and `Map`s are insertion-ordered association lists
  (`setAdd` appends when absent, `mapSet` replaces in place).
* JS exceptions are modelled by returning the mutated state together
  with an optional error (`throw` in JS aborts the method but leaves
  prior mutations in place, which the pair captures).
* The BFS queue stores each partial path in reverse order (current
  node first); `findPath` reverses the found path before returning,
  mirroring the JS `[...currentPath, neighbor]` tail append.
* `maxDepth` is the fuel of the loop: the JS guard
  `iterations < maxDepth` decrements it once per dequeue.
* Node types form the closed tag set of `NODE_TYPES`; coordinate
  values are modelled by a small JS value type (`JSValue`) because
  `addNode` inspects truthiness, array-ness and length only.
-/

namespace Wayfinding

/-- The closed set of node type tags (`NODE_TYPES` in the source). -/
inductive NodeType where
  | waypoint
  | di_box
  | cabinet
  | fossil
  | unknown
deriving DecidableEq, Repr, Fintype

/-- Errors thrown by the core (`PathfindingError` codes); the
`nodeNotFound` payload records which id the message names. -/
inductive PathfindingError where
  | invalidNodeId
  | invalidCoordinates
  | nodeNotFound (nodeId : String)
  | invalidGraph
deriving DecidableEq, Repr

/-- A fragment of JS values, rich enough for the `coordinates`
argument of `addNode` (numbers are modelled as integers; `NaN` is not
needed by any claim). -/
inductive JSValue where
  | nullV
  | undefinedV
  | boolV (b : Bool)
  | numV (n : Int)
  | strV (s : String)
  | arrV (elems : List JSValue)

/-- JS truthiness for `JSValue` (`if (coordinates)`). -/
def truthy : JSValue → Bool
  | .nullV => false
  | .undefinedV => false
  | .boolV b => b
  | .numV n => n != 0
  | .strV s => s != ""
  | .arrV _ => true

/-- `nodeId.trim() === ''`: the id is empty or all-whitespace.
(Stated via the character list so that it evaluates by kernel
reduction; `String.trim` itself is defined by well-founded recursion.) -/
def blankId (nodeId : String) : Bool :=
  nodeId.toList.all Char.isWhitespace

/-- `Array.isArray`. -/
def isArray : JSValue → Bool
  | .arrV _ => true
  | _ => false

/-- `value.length` as read on an array (never consulted otherwise). -/
def jsLength : JSValue → Nat
  | .arrV xs => xs.length
  | _ => 0

/-- JS `Set.add`: append if not already present. -/
def setAdd (l : List String) (x : String) : List String :=
  if l.contains x then l else l ++ [x]

/-- JS `Map.set`: replace the value in place if the key exists,
otherwise append the binding. -/
def mapSet {β : Type} : List (String × β) → String → β → List (String × β)
  | [], k, v => [(k, v)]
  | (k', v') :: rest, k, v =>
    if k' = k then (k, v) :: rest else (k', v') :: mapSet rest k v

/-- The wayfinding graph.  `walkingPaths` and `fixturePolygons` are
populated only by external collaborators and the core observes only
their sizes (`getStatistics`), so they are modelled by their counts. -/
structure WayfindingGraph where
  nodes : List String
  adjacencyList : List (String × List String)
  nodeTypes : List (String × NodeType)
  nodeCoordinates : List (String × JSValue)
  walkingPaths : Nat
  fixturePolygons : Nat

def emptyGraph : WayfindingGraph := ⟨[], [], [], [], 0, 0⟩

/-- `this.adjacencyList.get(k).add(v)`; an absent key is inserted
(the source assumes the entry exists, which `addNode` guarantees). -/
def adjAdd : List (String × List String) → String → String → List (String × List String)
  | [], k, v => [(k, [v])]
  | (k', ns) :: rest, k, v =>
    if k' = k then (k', setAdd ns v) :: rest else (k', ns) :: adjAdd rest k v

/-- `if (!this.adjacencyList.has(nodeId)) this.adjacencyList.set(nodeId, new Set())`. -/
def ensureAdj (g : WayfindingGraph) (nodeId : String) : WayfindingGraph :=
  if (g.adjacencyList.map (·.1)).contains nodeId then g
  else { g with adjacencyList := g.adjacencyList ++ [(nodeId, [])] }

/-- `WayfindingGraph.addNode`.  Returns the state after the call and
the thrown error, if any.  The id is inserted into the node set and
the type map before coordinates are validated; the coordinate check
is only `Array.isArray(coordinates) && coordinates.length === 2`,
guarded by JS truthiness of the argument. -/
def addNode (g : WayfindingGraph) (nodeId : String) (ty : NodeType)
    (coordinates : JSValue) : WayfindingGraph × Option PathfindingError :=
  if blankId nodeId then (g, some .invalidNodeId)
  else
    let g1 := { g with
      nodes := setAdd g.nodes nodeId
      nodeTypes := mapSet g.nodeTypes nodeId ty }
    if truthy coordinates then
      if !(isArray coordinates) || jsLength coordinates != 2 then
        (g1, some .invalidCoordinates)
      else
        let g2 := { g1 with
          nodeCoordinates := mapSet g1.nodeCoordinates nodeId coordinates }
        (ensureAdj g2 nodeId, none)
    else (ensureAdj g1 nodeId, none)

/-- `WayfindingGraph.addEdge`. -/
def addEdge (g : WayfindingGraph) (sourceId targetId : String)
    (bidirectional : Bool) : WayfindingGraph × Option PathfindingError :=
  if ¬ g.nodes.contains sourceId then (g, some (.nodeNotFound sourceId))
  else if ¬ g.nodes.contains targetId then (g, some (.nodeNotFound targetId))
  else
    let g1 := { g with adjacencyList := adjAdd g.adjacencyList sourceId targetId }
    if bidirectional then
      ({ g1 with adjacencyList := adjAdd g1.adjacencyList targetId sourceId }, none)
    else (g1, none)

/-- `WayfindingGraph.getNodeType` (defaults to `unknown`). -/
def getNodeType (g : WayfindingGraph) (nodeId : String) : NodeType :=
  (List.lookup nodeId g.nodeTypes).getD .unknown

/-- `WayfindingGraph.getNodeCoordinates`. -/
def getNodeCoordinates (g : WayfindingGraph) (nodeId : String) : Option JSValue :=
  List.lookup nodeId g.nodeCoordinates

/-- `WayfindingGraph.getNeighbors` (empty if the id is absent). -/
def getNeighbors (g : WayfindingGraph) (nodeId : String) : List String :=
  (List.lookup nodeId g.adjacencyList).getD []

/-- `WayfindingGraph.hasNode`. -/
def hasNode (g : WayfindingGraph) (nodeId : String) : Bool :=
  g.nodes.contains nodeId

/-- The record returned by `getStatistics`.  `totalEdges` is a JS
number: the sum of adjacency-set sizes divided by `2`, which need not
be an integer, hence `ℚ`. -/
structure GraphStatistics where
  totalNodes : Nat
  typeCount : NodeType → Nat
  totalEdges : ℚ
  walkingPathCount : Nat
  fixturePolygonCount : Nat

/-- The histogram fold of `getStatistics`:
`typeCount[type] = (typeCount[type] || 0) + 1` over the type map values. -/
def typeCountFold (vals : List NodeType) : NodeType → Nat :=
  vals.foldl (fun acc ty => fun x => if x = ty then acc x + 1 else acc x) (fun _ => 0)

/-- `WayfindingGraph.getStatistics`. -/
def getStatistics (g : WayfindingGraph) : GraphStatistics :=
  { totalNodes := g.nodes.length
    typeCount := typeCountFold (g.nodeTypes.map (·.2))
    totalEdges := ((((g.adjacencyList.map (fun p => p.2.length)).sum : ℕ) : ℚ)) / 2
    walkingPathCount := g.walkingPaths
    fixturePolygonCount := g.fixturePolygons }

/-- `Pathfinder._isFixtureType`. -/
def isFixtureType (nodeType : NodeType) : Bool :=
  nodeType = .di_box || nodeType = .cabinet || nodeType = .fossil

/-- `Pathfinder._canVisitNeighbor`: the routing predicate, with the
source's rule order. -/
def canVisitNeighbor (currentType neighborType : NodeType)
    (allowDirectFixtureConnections : Bool) : Bool :=
  if currentType = .waypoint && neighborType = .waypoint then true
  else if isFixtureType currentType && neighborType = .waypoint then true
  else if currentType = .waypoint && isFixtureType neighborType then true
  else if isFixtureType currentType && isFixtureType neighborType then false
  else if currentType = .unknown || neighborType = .unknown then
    allowDirectFixtureConnections
  else false

/-- The options object of `findPath` (defaults: `false`, `1000`, `∅`). -/
structure PathOptions where
  allowDirectFixtureConnections : Bool
  maxDepth : Nat
  excludeNodes : List String

/-- The neighbor loop of `findPath`: scans the neighbors of the node
heading `currentPath`, skipping visited/excluded neighbors and those
the routing predicate forbids, returning the extended path as soon as
the target is reached, and otherwise accumulating the queue and the
visited set. -/
def visitNeighbors (g : WayfindingGraph) (targetId : String) (allow : Bool)
    (exclude : List String) (currentType : NodeType) (currentPath : List String) :
    List String → List (List String) → List String →
      Option (List String) × List (List String) × List String
  | [], queue, visited => (none, queue, visited)
  | n :: ns, queue, visited =>
    if visited.contains n || exclude.contains n then
      visitNeighbors g targetId allow exclude currentType currentPath ns queue visited
    else if ¬ canVisitNeighbor currentType (getNodeType g n) allow then
      visitNeighbors g targetId allow exclude currentType currentPath ns queue visited
    else if n = targetId then
      (some (n :: currentPath), queue, visited)
    else
      visitNeighbors g targetId allow exclude currentType currentPath ns
        (queue ++ [n :: currentPath]) (visited ++ [n])

/-- The BFS loop of `findPath`; the fuel is `maxDepth` minus the
iterations already performed. -/
def bfsLoop (g : WayfindingGraph) (targetId : String) (allow : Bool)
    (exclude : List String) :
    Nat → List (List String) → List String → Option (List String)
  | 0, _, _ => none
  | _ + 1, [], _ => none
  | fuel + 1, currentPath :: rest, visited =>
    let currentNode := currentPath.headD ""
    match visitNeighbors g targetId allow exclude (getNodeType g currentNode)
        currentPath (getNeighbors g currentNode) rest visited with
    | (some p, _, _) => some p
    | (none, queue2, visited2) => bfsLoop g targetId allow exclude fuel queue2 visited2

/-- `Pathfinder.findPath`. -/
def findPath (g : WayfindingGraph) (sourceId targetId : String)
    (options : PathOptions) : Except PathfindingError (Option (List String)) :=
  if ¬ hasNode g sourceId then .error (.nodeNotFound sourceId)
  else if ¬ hasNode g targetId then .error (.nodeNotFound targetId)
  else if sourceId = targetId then .ok (some [sourceId])
  else
    .ok ((bfsLoop g targetId options.allowDirectFixtureConnections
      options.excludeNodes options.maxDepth [[sourceId]] [sourceId]).map List.reverse)

/-- The loop of `findMultiplePaths`: repeated `findPath` calls, each
passing the accumulated interior nodes as `excludeNodes` (the JS
spread `{...options, excludeNodes: visited}` replaces the caller's
exclusions).  Appending interiors with `++` matches `Set.add` because
the set is observed only through `contains`. -/
def findMultiplePathsAux (g : WayfindingGraph) (sourceId targetId : String)
    (options : PathOptions) :
    Nat → List (List String) → List String →
      Except PathfindingError (List (List String))
  | 0, paths, _ => .ok paths
  | n + 1, paths, visited =>
    match findPath g sourceId targetId
        ⟨options.allowDirectFixtureConnections, options.maxDepth, visited⟩ with
    | .error e => .error e
    | .ok none => .ok paths
    | .ok (some path) =>
      findMultiplePathsAux g sourceId targetId options n
        (paths ++ [path]) (visited ++ (path.drop 1).dropLast)

/-- `Pathfinder.findMultiplePaths`. -/
def findMultiplePaths (g : WayfindingGraph) (sourceId targetId : String)
    (maxPaths : Nat) (options : PathOptions) :
    Except PathfindingError (List (List String)) :=
  findMultiplePathsAux g sourceId targetId options maxPaths [] []

/-! ## Basic lemmas about the JS collection helpers -/

theorem setAdd_contains_self (l : List String) (x : String) :
    (setAdd l x).contains x = true := by
  unfold setAdd
  split
  · assumption
  · simp

theorem lookup_mapSet_self {β : Type} (l : List (String × β)) (k : String) (v : β) :
    List.lookup k (mapSet l k v) = some v := by
  induction l with
  | nil => simp [mapSet, List.lookup]
  | cons hd tl ih =>
    obtain ⟨k', v'⟩ := hd
    unfold mapSet
    split
    · simp [List.lookup]
    · rename_i hne
      have hkk : (k == k') = false := by
        refine beq_eq_false_iff_ne.mpr fun h => hne h.symm
      simp [List.lookup, hkk, ih]

/-! ## Example graphs used by the witnesses -/

/-- Two waypoints, no edge. -/
def pairGraph : WayfindingGraph :=
  (addNode (addNode emptyGraph "a" .waypoint .nullV).1 "b" .waypoint .nullV).1

/-- Fixture `a`, unknown-typed `u`, fixture `b`, edges `a–u–b`. -/
def bridgeGraph : WayfindingGraph :=
  (addEdge (addEdge
    (addNode (addNode (addNode emptyGraph "a" .di_box .nullV).1
      "u" .unknown .nullV).1 "b" .cabinet .nullV).1
    "a" "u" true).1 "u" "b" true).1

/-- The waypoint-chain scenario: `di1 – wp1 – wp2 – wp3 – cab1`. -/
def chainGraph : WayfindingGraph :=
  (addEdge (addEdge (addEdge (addEdge
    (addNode (addNode (addNode (addNode (addNode emptyGraph
      "wp1" .waypoint .nullV).1 "wp2" .waypoint .nullV).1
      "wp3" .waypoint .nullV).1 "di1" .di_box .nullV).1
      "cab1" .cabinet .nullV).1
    "wp1" "wp2" true).1 "wp2" "wp3" true).1
    "di1" "wp1" true).1 "cab1" "wp3" true).1

/-- A waypoint diamond: `s – p – t` and `s – q – t`. -/
def diamondGraph : WayfindingGraph :=
  (addEdge (addEdge (addEdge (addEdge
    (addNode (addNode (addNode (addNode emptyGraph
      "s" .waypoint .nullV).1 "p" .waypoint .nullV).1
      "q" .waypoint .nullV).1 "t" .waypoint .nullV).1
    "s" "p" true).1 "p" "t" true).1 "s" "q" true).1 "q" "t" true).1

/-! ## C2: the routing predicate matches the spec's decision table -/

/-- Modelled from the spec: the decision table of §4.3 as the claim
reads it — the five transition classes are disjoint, so the table is
written with the `Unknown` rule first to state the claim's "any pair
in which either side is Unknown returns exactly the flag value"
unconditionally. -/
def specRoutingTable (currentType neighborType : NodeType) (flag : Bool) : Bool :=
  if currentType = .unknown ∨ neighborType = .unknown then flag
  else if currentType = .waypoint ∧ neighborType = .waypoint then true
  else if isFixtureType currentType ∧ neighborType = .waypoint then true
  else if currentType = .waypoint ∧ isFixtureType neighborType then true
  else false

/-- C2: `canVisitNeighbor` agrees with the spec's decision table on
the whole closed type set and both flag values; in particular
fixture→fixture is `false` for both flag values (the table never
consults the flag on fixture pairs) and either-side-`Unknown` returns
exactly the flag. -/
theorem canVisitNeighbor_matches_spec_table :
    ∀ (c n : NodeType) (f : Bool), canVisitNeighbor c n f = specRoutingTable c n f := by
  decide

/-! ## C5: `findPath` error behaviour on missing endpoints -/

/-- C5: `findPath` throws `NodeNotFound` naming the missing id
exactly when an endpoint is absent (the source is checked first), and
when both endpoints exist it never throws — it returns some
non-exceptional outcome (a path or `none`). -/
theorem findPath_node_not_found (g : WayfindingGraph) (s t : String)
    (o : PathOptions) :
    (hasNode g s = false → findPath g s t o = .error (.nodeNotFound s)) ∧
    (hasNode g s = true → hasNode g t = false →
      findPath g s t o = .error (.nodeNotFound t)) ∧
    (hasNode g s = true → hasNode g t = true →
      ∃ r : Option (List String), findPath g s t o = .ok r) := by
  refine ⟨fun hs => ?_, fun hs ht => ?_, fun hs ht => ?_⟩
  · simp [findPath, hs]
  · simp [findPath, hs, ht]
  · by_cases hst : s = t
    · exact ⟨some [s], by simp [findPath, hs, ht, hst]⟩
    · exact ⟨(bfsLoop g t o.allowDirectFixtureConnections o.excludeNodes
        o.maxDepth [[s]] [s]).map List.reverse, by simp [findPath, hs, ht, hst]⟩

/-- Witness for C5 on concrete graphs: a missing source, a missing
target, and a pair of existing endpoints. -/
theorem findPath_node_not_found_witness :
    findPath pairGraph "ghost" "a" ⟨false, 5, []⟩ = .error (.nodeNotFound "ghost") ∧
    findPath pairGraph "a" "ghost" ⟨false, 5, []⟩ = .error (.nodeNotFound "ghost") ∧
    ∃ r : Option (List String), findPath pairGraph "a" "b" ⟨false, 5, []⟩ = .ok r :=
  ⟨(findPath_node_not_found pairGraph "ghost" "a" ⟨false, 5, []⟩).1 (by decide),
   (findPath_node_not_found pairGraph "a" "ghost" ⟨false, 5, []⟩).2.1 (by decide) (by decide),
   (findPath_node_not_found pairGraph "a" "b" ⟨false, 5, []⟩).2.2 (by decide) (by decide)⟩

/-! ## C9: `addNode` has already mutated the graph when it throws
`InvalidCoordinates` -/

/-- C9: if `addNode` throws `InvalidCoordinates`, the node id has
nevertheless been inserted into the node set and the type map (the
insertion precedes coordinate validation), so the state after the
call contains the node with the supplied type. -/
theorem addNode_mutates_before_coordinate_check (g : WayfindingGraph)
    (id : String) (ty : NodeType) (c : JSValue)
    (h : (addNode g id ty c).2 = some .invalidCoordinates) :
    hasNode (addNode g id ty c).1 id = true ∧
    getNodeType (addNode g id ty c).1 id = ty := by
  unfold addNode at h ⊢
  by_cases hid : blankId id = true
  · simp [hid] at h
  · rw [if_neg hid] at h ⊢
    by_cases htr : truthy c = true
    · rw [if_pos htr] at h ⊢
      by_cases harr : (!(isArray c) || jsLength c != 2) = true
      · rw [if_pos harr]
        exact ⟨setAdd_contains_self _ _, by
          simp [getNodeType, lookup_mapSet_self]⟩
      · rw [if_neg harr] at h
        simp at h
    · rw [if_neg htr] at h
      simp at h

/-- Witness for C9: adding a node with a 1-element coordinate array
throws, yet the node is present afterwards with its type. -/
theorem addNode_mutates_before_coordinate_check_witness :
    hasNode (addNode emptyGraph "n" .di_box (.arrV [.numV 1])).1 "n" = true ∧
    getNodeType (addNode emptyGraph "n" .di_box (.arrV [.numV 1])).1 "n" = .di_box :=
  addNode_mutates_before_coordinate_check emptyGraph "n" .di_box (.arrV [.numV 1]) rfl

/-! ## C6: the coordinate validation of `addNode` -/

/-- Modelled from the spec: a coordinates value that is "exactly a
2-element numeric pair". -/
def isNumericPair : JSValue → Bool
  | .arrV [.numV _, .numV _] => true
  | _ => false

/-- Counterexample to C6: `['x', 'y']` is not a 2-element pair of
numbers, yet `addNode` succeeds — the source checks only
`Array.isArray(coordinates) && coordinates.length === 2`, never the
element types. -/
theorem addNode_coordinates_counterexample :
    isNumericPair (.arrV [.strV "x", .strV "y"]) = false ∧
    (addNode emptyGraph "n" .waypoint (.arrV [.strV "x", .strV "y"])).2 = none :=
  ⟨rfl, rfl⟩

theorem getNodeCoordinates_ensureAdj (g : WayfindingGraph) (x id : String) :
    getNodeCoordinates (ensureAdj g x) id = getNodeCoordinates g id := by
  unfold ensureAdj getNodeCoordinates
  split <;> rfl

/-- C6 as amended: for a non-blank id, `addNode` fails with
`InvalidCoordinates` iff the coordinates value is truthy and is not
an array of length exactly 2 (element types are never checked, and a
falsy coordinates value is treated as absent); with any 2-element
array — numeric or not — it succeeds and stores the value. -/
theorem addNode_coordinates_amended (g : WayfindingGraph) (id : String)
    (ty : NodeType) (c : JSValue) (hid : blankId id = false) :
    ((addNode g id ty c).2 = some .invalidCoordinates ↔
      (truthy c = true ∧ ∀ xs, c = .arrV xs → xs.length ≠ 2)) ∧
    (∀ xs, c = .arrV xs → xs.length = 2 →
      (addNode g id ty c).2 = none ∧
      getNodeCoordinates (addNode g id ty c).1 id = some c) := by
  unfold addNode
  rw [if_neg (by simp [hid])]
  by_cases htr : truthy c = true
  · rw [if_pos htr]
    by_cases harr : (!(isArray c) || jsLength c != 2) = true
    · rw [if_pos harr]
      refine ⟨iff_of_true rfl ⟨htr, fun ys hys => ?_⟩, fun ys hys hlen2 => ?_⟩
      · subst hys
        simpa [isArray, jsLength] using harr
      · subst hys
        simp [isArray, jsLength, hlen2] at harr
    · rw [if_neg harr]
      refine ⟨iff_of_false (by simp) (fun h => ?_), fun ys hys hlen2 => ⟨rfl, ?_⟩⟩
      · simp only [Bool.or_eq_true, Bool.not_eq_true', bne_iff_ne, not_or, not_not,
          Bool.not_eq_false] at harr
        obtain ⟨ha, hl⟩ := harr
        cases c with
        | arrV xs => exact h.2 xs rfl (by simpa [jsLength] using hl)
        | nullV => simp [isArray] at ha
        | undefinedV => simp [isArray] at ha
        | boolV b => simp [isArray] at ha
        | numV n => simp [isArray] at ha
        | strV s => simp [isArray] at ha
      · subst hys
        rw [getNodeCoordinates_ensureAdj]
        simp [getNodeCoordinates, lookup_mapSet_self]
  · rw [if_neg htr]
    refine ⟨iff_of_false (by simp) (fun h => htr h.1), fun ys hys hlen2 => ?_⟩
    subst hys
    exact absurd rfl htr

/-- Witness for the amended C6: a truthy non-array throws
`InvalidCoordinates`, and a numeric 2-element pair succeeds and is
stored. -/
theorem addNode_coordinates_amended_witness :
    (addNode emptyGraph "n" .waypoint (.strV "bad")).2 = some .invalidCoordinates ∧
    (addNode emptyGraph "n" .waypoint (.arrV [.numV 1, .numV 2])).2 = none ∧
    getNodeCoordinates (addNode emptyGraph "n" .waypoint
      (.arrV [.numV 1, .numV 2])).1 "n" = some (.arrV [.numV 1, .numV 2]) := by
  refine ⟨(addNode_coordinates_amended emptyGraph "n" .waypoint (.strV "bad")
      rfl).1.mpr ⟨rfl, fun ys hys => nomatch hys⟩, ?_, ?_⟩
  · exact ((addNode_coordinates_amended emptyGraph "n" .waypoint
      (.arrV [.numV 1, .numV 2]) rfl).2 [.numV 1, .numV 2] rfl rfl).1
  · exact ((addNode_coordinates_amended emptyGraph "n" .waypoint
      (.arrV [.numV 1, .numV 2]) rfl).2 [.numV 1, .numV 2] rfl rfl).2

/-! ## C1: fixture-to-fixture paths and waypoints -/

/-- Counterexample to C1: in `bridgeGraph` both endpoints are
fixture-typed, yet with `allowDirectFixtureConnections: true` the
returned path routes through the `unknown`-typed node `u` and
contains no Waypoint strictly between the endpoints (routing rule 5
admits unknown-typed hops when the flag is set). -/
theorem fixture_path_waypoint_counterexample :
    isFixtureType (getNodeType bridgeGraph "a") = true ∧
    isFixtureType (getNodeType bridgeGraph "b") = true ∧
    findPath bridgeGraph "a" "b" ⟨true, 1000, []⟩ = .ok (some ["a", "u", "b"]) ∧
    ((["a", "u", "b"].drop 1).dropLast.all
      fun x => getNodeType bridgeGraph x != .waypoint) = true :=
  ⟨rfl, rfl, rfl, rfl⟩

/-! ## BFS soundness: what every returned path satisfies -/

/-- One allowed BFS transition from `u` to `v`: a graph edge, an
admitted typed hop, and `v` not excluded. -/
def Hop (g : WayfindingGraph) (allow : Bool) (exclude : List String)
    (u v : String) : Prop :=
  v ∈ getNeighbors g u ∧
  canVisitNeighbor (getNodeType g u) (getNodeType g v) allow = true ∧
  v ∉ exclude

instance (g : WayfindingGraph) (allow : Bool) (exclude : List String)
    (u v : String) : Decidable (Hop g allow exclude u v) :=
  inferInstanceAs (Decidable (_ ∧ _ ∧ _))

/-- A queue entry of the BFS: a reversed path whose last element is
the source and whose consecutive elements are allowed hops (read
backwards). -/
def RPathFrom (g : WayfindingGraph) (allow : Bool) (exclude : List String)
    (s : String) (q : List String) : Prop :=
  q.getLast? = some s ∧ List.Chain' (fun a b => Hop g allow exclude b a) q

theorem RPathFrom_ne_nil {g allow exclude s q}
    (h : RPathFrom g allow exclude s q) : q ≠ [] := by
  intro hq
  subst hq
  simp [RPathFrom] at h

/-- Extending a queue entry by an allowed hop onto its head. -/
theorem RPathFrom_cons {g allow exclude s q n}
    (h : RPathFrom g allow exclude s q)
    (hhop : Hop g allow exclude (q.headD "") n) :
    RPathFrom g allow exclude s (n :: q) := by
  obtain ⟨hlast, hchain⟩ := h
  have hne : q ≠ [] := RPathFrom_ne_nil ⟨hlast, hchain⟩
  obtain ⟨a, q', rfl⟩ := List.exists_cons_of_ne_nil hne
  refine ⟨by rwa [List.getLast?_cons_cons], ?_⟩
  refine hchain.cons' ?_
  intro y hy
  have hy' : a = y := by simpa using hy
  subst hy'
  simpa using hhop

/-- The neighbor scan preserves entry validity and only returns the
target appended to the current entry by an allowed hop. -/
theorem visitNeighbors_sound (g : WayfindingGraph) (allow : Bool)
    (exclude : List String) (t s : String) (ct : NodeType) (cp : List String)
    (hcp : RPathFrom g allow exclude s cp)
    (hct : ct = getNodeType g (cp.headD "")) :
    ∀ (ns : List String) (queue : List (List String)) (visited : List String),
      (∀ n ∈ ns, n ∈ getNeighbors g (cp.headD "")) →
      (∀ q ∈ queue, RPathFrom g allow exclude s q) →
      (∀ p q2 v2, visitNeighbors g t allow exclude ct cp ns queue visited =
          (some p, q2, v2) →
        p = t :: cp ∧ Hop g allow exclude (cp.headD "") t ∧
        RPathFrom g allow exclude s p) ∧
      (∀ q2 v2, visitNeighbors g t allow exclude ct cp ns queue visited =
          (none, q2, v2) →
        ∀ q ∈ q2, RPathFrom g allow exclude s q) := by
  intro ns
  induction ns with
  | nil =>
    intro queue visited hns hq
    refine ⟨fun p q2 v2 h => by simp [visitNeighbors] at h, fun q2 v2 h q hq2 => ?_⟩
    simp only [visitNeighbors, Prod.mk.injEq] at h
    exact hq q (h.2.1 ▸ hq2)
  | cons n ns' ih =>
    intro queue visited hns hq
    by_cases h1 : (visited.contains n || exclude.contains n) = true
    · have hstep : visitNeighbors g t allow exclude ct cp (n :: ns') queue visited =
          visitNeighbors g t allow exclude ct cp ns' queue visited := by
        simp only [visitNeighbors]
        rw [if_pos h1]
      rw [hstep]
      exact ih queue visited (fun m hm => hns m (List.mem_cons_of_mem n hm)) hq
    · by_cases h2 : canVisitNeighbor ct (getNodeType g n) allow = true
      · have hhop : Hop g allow exclude (cp.headD "") n := by
          refine ⟨hns n (List.mem_cons_self n ns'), hct ▸ h2, fun hmem => ?_⟩
          simp only [Bool.or_eq_true, List.elem_iff] at h1
          exact h1 (Or.inr hmem)
        by_cases h3 : n = t
        · have hstep : visitNeighbors g t allow exclude ct cp (n :: ns') queue visited =
              (some (n :: cp), queue, visited) := by
            simp only [visitNeighbors]
            rw [if_neg h1, if_neg (by simpa using h2), if_pos h3]
          rw [hstep]
          subst h3
          refine ⟨fun p q2 v2 h => ?_, fun q2 v2 h => by simp at h⟩
          obtain ⟨h4, -, -⟩ := Prod.mk.injEq .. ▸ h
          injection h4 with h4
          subst h4
          exact ⟨rfl, hhop, RPathFrom_cons hcp hhop⟩
        · have hstep : visitNeighbors g t allow exclude ct cp (n :: ns') queue visited =
              visitNeighbors g t allow exclude ct cp ns'
                (queue ++ [n :: cp]) (visited ++ [n]) := by
            simp only [visitNeighbors]
            rw [if_neg h1, if_neg (by simpa using h2), if_neg h3]
          rw [hstep]
          refine ih (queue ++ [n :: cp]) (visited ++ [n])
            (fun m hm => hns m (List.mem_cons_of_mem n hm)) ?_
          intro q hq2
          rcases List.mem_append.mp hq2 with hql | hqr
          · exact hq q hql
          · have : q = n :: cp := by simpa using hqr
            subst this
            exact RPathFrom_cons hcp hhop
      · have hstep : visitNeighbors g t allow exclude ct cp (n :: ns') queue visited =
            visitNeighbors g t allow exclude ct cp ns' queue visited := by
          simp only [visitNeighbors]
          rw [if_neg h1, if_pos (by simpa using h2)]
        rw [hstep]
        exact ih queue visited (fun m hm => hns m (List.mem_cons_of_mem n hm)) hq

/-- The BFS loop only returns valid entries headed by the target. -/
theorem bfsLoop_sound (g : WayfindingGraph) (allow : Bool)
    (exclude : List String) (t s : String) :
    ∀ (fuel : Nat) (queue : List (List String)) (visited : List String),
      (∀ q ∈ queue, RPathFrom g allow exclude s q) →
      ∀ p, bfsLoop g t allow exclude fuel queue visited = some p →
        RPathFrom g allow exclude s p ∧ p.head? = some t := by
  intro fuel
  induction fuel with
  | zero => intro queue visited _ p h; simp [bfsLoop] at h
  | succ fuel ih =>
    intro queue visited hq p h
    cases queue with
    | nil => simp [bfsLoop] at h
    | cons cp rest =>
      have hcp : RPathFrom g allow exclude s cp := hq cp (List.mem_cons_self cp rest)
      have hsound := visitNeighbors_sound g allow exclude t s
        (getNodeType g (cp.headD "")) cp hcp rfl
        (getNeighbors g (cp.headD "")) rest visited (fun n hn => hn)
        (fun q hq2 => hq q (List.mem_cons_of_mem cp hq2))
      rcases hr : visitNeighbors g t allow exclude (getNodeType g (cp.headD ""))
          cp (getNeighbors g (cp.headD "")) rest visited with ⟨res1, q2, v2⟩
      rw [bfsLoop, hr] at h
      cases res1 with
      | some p' =>
        simp only at h
        injection h with h
        obtain ⟨hpe, -, hpv⟩ := hsound.1 p' q2 v2 hr
        subst h
        exact ⟨hpv, by rw [hpe]; rfl⟩
      | none =>
        simp only at h
        exact ih q2 v2 (hsound.2 q2 v2 hr) p h

/-- Everything `findPath` returns: headed by the source, ending at
the target, and consecutive elements joined by allowed hops
(including the exclusion constraint on every hopped-to node). -/
theorem findPath_sound (g : WayfindingGraph) (s t : String) (o : PathOptions)
    (p : List String) (h : findPath g s t o = .ok (some p)) :
    p.head? = some s ∧ p.getLast? = some t ∧
    List.Chain' (Hop g o.allowDirectFixtureConnections o.excludeNodes) p := by
  unfold findPath at h
  by_cases hs : hasNode g s = true
  · rw [if_neg (by simp [hs])] at h
    by_cases ht : hasNode g t = true
    · rw [if_neg (by simp [ht])] at h
      by_cases hst : s = t
      · rw [if_pos hst] at h
        injection h with h
        injection h with h
        subst h
        subst hst
        exact ⟨rfl, rfl, List.chain'_singleton s⟩
      · rw [if_neg hst] at h
        injection h with h
        obtain ⟨q, hq, hqr⟩ := Option.map_eq_some'.mp h
        obtain ⟨⟨hlast, hchain⟩, hhead⟩ :=
          bfsLoop_sound g o.allowDirectFixtureConnections o.excludeNodes t s
            o.maxDepth [[s]] [s]
            (by
              intro q2 hq2
              have : q2 = [s] := by simpa using hq2
              subst this
              exact ⟨rfl, List.chain'_singleton s⟩)
            q hq
        subst hqr
        refine ⟨?_, ?_, ?_⟩
        · rw [List.head?_reverse]
          exact hlast
        · rw [List.getLast?_reverse]
          exact hhead
        · exact List.chain'_reverse.mpr hchain
    · rw [if_pos (by simp [ht])] at h
      cases h
  · rw [if_pos (by simp [hs])] at h
    cases h

/-! ## C3: returned paths are valid constrained walks -/

/-- A hop as the claim states it: a graph edge admitted by the
routing predicate. -/
def ValidStep (g : WayfindingGraph) (allow : Bool) (u v : String) : Prop :=
  v ∈ getNeighbors g u ∧
  canVisitNeighbor (getNodeType g u) (getNodeType g v) allow = true

instance (g : WayfindingGraph) (allow : Bool) (u v : String) :
    Decidable (ValidStep g allow u v) :=
  inferInstanceAs (Decidable (_ ∧ _))

/-- C3: every path returned by `findPath` starts at the source, ends
at the target, and every consecutive pair — the final hop onto the
target included — is a graph edge satisfying the routing predicate. -/
theorem findPath_returns_valid_walk (g : WayfindingGraph) (s t : String)
    (o : PathOptions) (p : List String) (h : findPath g s t o = .ok (some p)) :
    p.head? = some s ∧ p.getLast? = some t ∧
    List.Chain' (ValidStep g o.allowDirectFixtureConnections) p := by
  obtain ⟨h1, h2, h3⟩ := findPath_sound g s t o p h
  exact ⟨h1, h2, h3.imp fun a b hab => ⟨hab.1, hab.2.1⟩⟩

/-- Witness for C3 on the waypoint-chain scenario. -/
theorem findPath_returns_valid_walk_witness :
    (["di1", "wp1", "wp2", "wp3", "cab1"] : List String).head? = some "di1" ∧
    (["di1", "wp1", "wp2", "wp3", "cab1"] : List String).getLast? = some "cab1" ∧
    List.Chain' (ValidStep chainGraph false) ["di1", "wp1", "wp2", "wp3", "cab1"] :=
  findPath_returns_valid_walk chainGraph "di1" "cab1" ⟨false, 1000, []⟩
    ["di1", "wp1", "wp2", "wp3", "cab1"] rfl

/-! ## C1 (amended): what stands strictly between two fixtures -/

theorem canVisit_from_fixture_not_fixture :
    ∀ (c n : NodeType) (f : Bool), isFixtureType c = true →
      canVisitNeighbor c n f = true → isFixtureType n = false := by
  decide

theorem canVisit_fixture_fixture_false :
    ∀ (c n : NodeType) (f : Bool), isFixtureType c = true →
      isFixtureType n = true → canVisitNeighbor c n f = false := by
  decide

theorem canVisit_from_fixture_flag_false :
    ∀ (c n : NodeType), isFixtureType c = true →
      canVisitNeighbor c n false = true → n = .waypoint := by
  decide

/-- C1 as amended: for distinct fixture-typed endpoints, any path
returned by `findPath` contains, strictly between them, at least one
node whose type is not a fixture type (a Waypoint or an
`unknown`-typed node); when `allowDirectFixtureConnections` is false
it contains a Waypoint there. -/
theorem fixture_path_waypoint_amended (g : WayfindingGraph) (s t : String)
    (o : PathOptions) (p : List String)
    (hs : isFixtureType (getNodeType g s) = true)
    (ht : isFixtureType (getNodeType g t) = true)
    (hst : s ≠ t)
    (h : findPath g s t o = .ok (some p)) :
    (∃ x ∈ (p.drop 1).dropLast, isFixtureType (getNodeType g x) = false) ∧
    (o.allowDirectFixtureConnections = false →
      ∃ x ∈ (p.drop 1).dropLast, getNodeType g x = .waypoint) := by
  obtain ⟨h1, h2, h3⟩ := findPath_sound g s t o p h
  cases p with
  | nil => cases h1
  | cons a rest =>
    have ha : a = s := by simpa using h1
    subst ha
    cases rest with
    | nil => exact absurd (by simpa using h2) hst
    | cons b rest' =>
      obtain ⟨hab, hchain⟩ := List.chain'_cons.mp h3
      cases rest' with
      | nil =>
        have hb : b = t := by simpa using h2
        subst hb
        have := canVisit_fixture_fixture_false _ _
          o.allowDirectFixtureConnections hs ht
        rw [hab.2.1] at this
        cases this
      | cons c' rest'' =>
        have hmem : b ∈ ((a :: b :: c' :: rest'').drop 1).dropLast := by
          simp
        refine ⟨⟨b, hmem, ?_⟩, fun hflag => ⟨b, hmem, ?_⟩⟩
        · exact canVisit_from_fixture_not_fixture _ _ _ hs hab.2.1
        · refine canVisit_from_fixture_flag_false _ _ hs ?_
          rw [← hflag]
          exact hab.2.1

/-- Witness for the amended C1 on the waypoint-chain scenario. -/
theorem fixture_path_waypoint_amended_witness :
    (∃ x ∈ ((["di1", "wp1", "wp2", "wp3", "cab1"] : List String).drop 1).dropLast,
      isFixtureType (getNodeType chainGraph x) = false) ∧
    ((false : Bool) = false →
      ∃ x ∈ ((["di1", "wp1", "wp2", "wp3", "cab1"] : List String).drop 1).dropLast,
        getNodeType chainGraph x = .waypoint) :=
  fixture_path_waypoint_amended chainGraph "di1" "cab1" ⟨false, 1000, []⟩
    ["di1", "wp1", "wp2", "wp3", "cab1"] (by decide) (by decide) (by decide) rfl

/-! ## C10: exclusion applies to the target, not the source -/

theorem visitNeighbors_no_return_of_excluded (g : WayfindingGraph)
    (allow : Bool) (exclude : List String) (t : String) (ct : NodeType)
    (cp : List String) (hmem : t ∈ exclude) :
    ∀ (ns : List String) (queue : List (List String)) (visited : List String)
      (p : List String) (q2 : List (List String)) (v2 : List String),
      visitNeighbors g t allow exclude ct cp ns queue visited =
        (some p, q2, v2) → False := by
  intro ns
  induction ns with
  | nil => intro queue visited p q2 v2 h; simp [visitNeighbors] at h
  | cons n ns' ih =>
    intro queue visited p q2 v2 h
    by_cases h1 : (visited.contains n || exclude.contains n) = true
    · rw [show visitNeighbors g t allow exclude ct cp (n :: ns') queue visited =
          visitNeighbors g t allow exclude ct cp ns' queue visited from by
        simp only [visitNeighbors]; rw [if_pos h1]] at h
      exact ih queue visited p q2 v2 h
    · by_cases h2 : canVisitNeighbor ct (getNodeType g n) allow = true
      · by_cases h3 : n = t
        · subst h3
          refine absurd ?_ h1
          simp only [Bool.or_eq_true, List.elem_iff]
          exact Or.inr hmem
        · rw [show visitNeighbors g t allow exclude ct cp (n :: ns') queue visited =
              visitNeighbors g t allow exclude ct cp ns'
                (queue ++ [n :: cp]) (visited ++ [n]) from by
            simp only [visitNeighbors]
            rw [if_neg h1, if_neg (by simpa using h2), if_neg h3]] at h
          exact ih _ _ p q2 v2 h
      · rw [show visitNeighbors g t allow exclude ct cp (n :: ns') queue visited =
            visitNeighbors g t allow exclude ct cp ns' queue visited from by
          simp only [visitNeighbors]
          rw [if_neg h1, if_pos (by simpa using h2)]] at h
        exact ih queue visited p q2 v2 h

theorem bfsLoop_none_of_excluded (g : WayfindingGraph) (allow : Bool)
    (exclude : List String) (t : String) (hmem : t ∈ exclude) :
    ∀ (fuel : Nat) (queue : List (List String)) (visited : List String),
      bfsLoop g t allow exclude fuel queue visited = none := by
  intro fuel
  induction fuel with
  | zero => intro queue visited; rfl
  | succ fuel ih =>
    intro queue visited
    cases queue with
    | nil => rfl
    | cons cp rest =>
      rcases hr : visitNeighbors g t allow exclude
          (getNodeType g (cp.headD "")) cp (getNeighbors g (cp.headD ""))
          rest visited with ⟨res1, q2, v2⟩
      rw [bfsLoop, hr]
      cases res1 with
      | some p =>
        exact absurd hr (by
          intro hr'
          exact visitNeighbors_no_return_of_excluded g allow exclude t
            (getNodeType g (cp.headD "")) cp hmem _ _ _ p q2 v2 hr')
      | none => exact ih q2 v2

/-- C10: if the target is in `excludeNodes`, `findPath` on distinct
existing endpoints returns `none` (the exclusion skip precedes the
target check), while excluding the source does not by itself prevent
a path: `diamondGraph` still yields a path with its source excluded. -/
theorem excludeNodes_hits_target_not_source :
    (∀ (g : WayfindingGraph) (s t : String) (o : PathOptions),
      hasNode g s = true → hasNode g t = true → s ≠ t →
      t ∈ o.excludeNodes → findPath g s t o = .ok none) ∧
    findPath diamondGraph "s" "t" ⟨false, 10, ["s"]⟩ = .ok (some ["s", "p", "t"]) := by
  constructor
  · intro g s t o hs ht hst hmem
    unfold findPath
    rw [if_neg (by simp [hs]), if_neg (by simp [ht]), if_neg hst,
      bfsLoop_none_of_excluded g o.allowDirectFixtureConnections
        o.excludeNodes t hmem o.maxDepth [[s]] [s]]
    rfl
  · rfl

/-- Witness for C10: a target in `excludeNodes` yields `none` on the
diamond graph. -/
theorem excludeNodes_hits_target_not_source_witness :
    findPath diamondGraph "s" "t" ⟨false, 10, ["t"]⟩ = .ok none :=
  excludeNodes_hits_target_not_source.1 diamondGraph "s" "t" ⟨false, 10, ["t"]⟩
    (by decide) (by decide) (by decide) (by decide)

/-! ## C7: interior disjointness of `findMultiplePaths` -/

/-- Along a `Hop`-chain every element after the first was hopped
onto, hence is not excluded. -/
theorem chain_tail_not_excluded (g : WayfindingGraph) (allow : Bool)
    (exclude : List String) :
    ∀ (p : List String), List.Chain' (Hop g allow exclude) p →
      ∀ x ∈ p.drop 1, x ∉ exclude := by
  intro p
  induction p with
  | nil => intro _ x hx; simp at hx
  | cons a rest ih =>
    intro hchain x hx
    simp only [List.drop_one, List.tail_cons] at hx
    cases rest with
    | nil => simp at hx
    | cons b rest' =>
      obtain ⟨hab, hrest⟩ := List.chain'_cons.mp hchain
      rcases List.mem_cons.mp hx with hxb | hx'
      · subst hxb
        exact hab.2.2
      · exact ih hrest x (by simpa using hx')

/-- Every node of a returned path other than the source is absent
from `excludeNodes`. -/
theorem findPath_not_excluded (g : WayfindingGraph) (s t : String)
    (o : PathOptions) (p : List String) (h : findPath g s t o = .ok (some p)) :
    ∀ x ∈ p, x ≠ s → x ∉ o.excludeNodes := by
  obtain ⟨h1, -, h3⟩ := findPath_sound g s t o p h
  intro x hx hxs
  cases p with
  | nil => simp at hx
  | cons a rest =>
    have ha : a = s := by simpa using h1
    rcases List.mem_cons.mp hx with hxa | hx'
    · exact absurd (ha ▸ hxa) hxs
    · exact chain_tail_not_excluded g o.allowDirectFixtureConnections
        o.excludeNodes (a :: rest) h3 x (by simpa using hx')

theorem mem_dropLast_of_ne (t : String) :
    ∀ (l : List String) (x : String), l.getLast? = some t → x ∈ l → x ≠ t →
      x ∈ l.dropLast := by
  intro l
  induction l with
  | nil => intro x _ hx; simp at hx
  | cons a rest ih =>
    intro x hlast hx hxt
    cases rest with
    | nil =>
      have : a = t := by simpa using hlast
      subst this
      rcases List.mem_singleton.mp hx with rfl
      exact absurd rfl hxt
    | cons b rest' =>
      rw [List.getLast?_cons_cons] at hlast
      rcases List.mem_cons.mp hx with hxa | hx'
      · subst hxa
        simp [List.dropLast_cons₂]
      · have := ih x hlast hx' hxt
        simp only [List.dropLast_cons₂, List.mem_cons]
        exact Or.inr this

/-- A node of a path that is neither the head (source) nor the last
element (target) lies in the interior `(p.drop 1).dropLast`. -/
theorem mem_interior (p : List String) (s t x : String)
    (hhead : p.head? = some s) (hlast : p.getLast? = some t)
    (hx : x ∈ p) (hxs : x ≠ s) (hxt : x ≠ t) :
    x ∈ (p.drop 1).dropLast := by
  cases p with
  | nil => simp at hx
  | cons a rest =>
    have ha : a = s := by simpa using hhead
    subst ha
    rcases List.mem_cons.mp hx with hxa | hx'
    · exact absurd hxa hxs
    · cases rest with
      | nil => simp at hx'
      | cons b rest' =>
        rw [List.getLast?_cons_cons] at hlast
        simpa using mem_dropLast_of_ne t (b :: rest') x hlast hx' hxt

/-- The loop of `findMultiplePaths` keeps the returned paths
pairwise interior-disjoint. -/
theorem findMultiplePathsAux_disjoint (g : WayfindingGraph) (s t : String)
    (o : PathOptions) :
    ∀ (n : Nat) (paths : List (List String)) (visited : List String),
      (∀ p ∈ paths, p.head? = some s ∧ p.getLast? = some t) →
      (∀ p ∈ paths, ∀ x ∈ p, x ≠ s → x ≠ t → x ∈ visited) →
      List.Pairwise (fun p q => ∀ x, x ∈ p → x ∈ q → x = s ∨ x = t) paths →
      ∀ ps, findMultiplePathsAux g s t o n paths visited = .ok ps →
        List.Pairwise (fun p q => ∀ x, x ∈ p → x ∈ q → x = s ∨ x = t) ps := by
  intro n
  induction n with
  | zero =>
    intro paths visited _ _ hpw ps h
    injection h with h
    exact h ▸ hpw
  | succ n ih =>
    intro paths visited hends hvis hpw ps h
    rw [findMultiplePathsAux] at h
    rcases hfp : findPath g s t
        ⟨o.allowDirectFixtureConnections, o.maxDepth, visited⟩ with e | r
    · rw [hfp] at h; cases h
    · rw [hfp] at h
      cases r with
      | none =>
        simp only at h
        injection h with h
        exact h ▸ hpw
      | some path =>
        simp only at h
        have hpe := findPath_sound g s t
          ⟨o.allowDirectFixtureConnections, o.maxDepth, visited⟩ path hfp
        have hnew : ∀ q ∈ paths, ∀ x, x ∈ q → x ∈ path → x = s ∨ x = t := by
          intro q hq x hxq hxp
          by_contra hcon
          push_neg at hcon
          obtain ⟨hxs, hxt⟩ := hcon
          have h1 : x ∈ visited := hvis q hq x hxq hxs hxt
          have h2 : x ∉ visited :=
            findPath_not_excluded g s t
              ⟨o.allowDirectFixtureConnections, o.maxDepth, visited⟩
              path hfp x hxp hxs
          exact h2 h1
        refine ih (paths ++ [path]) (visited ++ (path.drop 1).dropLast)
          ?_ ?_ ?_ ps h
        · intro p hp
          rcases List.mem_append.mp hp with hl | hr
          · exact hends p hl
          · rcases List.mem_singleton.mp hr with rfl
            exact ⟨hpe.1, hpe.2.1⟩
        · intro p hp x hx hxs hxt
          rcases List.mem_append.mp hp with hl | hr
          · exact List.mem_append_left _ (hvis p hl x hx hxs hxt)
          · rcases List.mem_singleton.mp hr with rfl
            exact List.mem_append_right _
              (mem_interior p s t x hpe.1 hpe.2.1 hx hxs hxt)
        · rw [List.pairwise_append]
          exact ⟨hpw, List.pairwise_singleton _ _,
            fun q hq p' hp' => by
              rcases List.mem_singleton.mp hp' with rfl
              exact hnew q hq⟩

/-- C7: any two distinct paths returned by one `findMultiplePaths`
call share no node besides the endpoints — each earlier path's
interior was excluded from every later search. -/
theorem findMultiplePaths_interior_disjoint (g : WayfindingGraph)
    (s t : String) (maxPaths : Nat) (o : PathOptions) (ps : List (List String))
    (h : findMultiplePaths g s t maxPaths o = .ok ps) :
    List.Pairwise (fun p q => ∀ x, x ∈ p → x ∈ q → x = s ∨ x = t) ps :=
  findMultiplePathsAux_disjoint g s t o maxPaths [] []
    (by simp) (by simp) (by simp) ps h

/-- Witness for C7: the diamond graph yields two interior-disjoint
paths. -/
theorem findMultiplePaths_interior_disjoint_witness :
    List.Pairwise (fun p q => ∀ x, x ∈ p → x ∈ q → x = "s" ∨ x = "t")
      [["s", "p", "t"], ["s", "q", "t"]] :=
  findMultiplePaths_interior_disjoint diamondGraph "s" "t" 3 ⟨false, 100, []⟩
    [["s", "p", "t"], ["s", "q", "t"]] rfl

/-! ## C8: `getStatistics` -/

/-- The data-model invariants of a graph built through `addNode` and
`addEdge`: no duplicate nodes, the type map keyed exactly by the
nodes, duplicate-free adjacency keyed and valued inside the node
set (JS `Set`/`Map` behaviour plus the spec's edge invariant). -/
def WellFormed (g : WayfindingGraph) : Prop :=
  g.nodes.Nodup ∧
  g.nodeTypes.map (·.1) = g.nodes ∧
  (g.adjacencyList.map (·.1)).Nodup ∧
  (∀ p ∈ g.adjacencyList, p.2.Nodup) ∧
  (∀ p ∈ g.adjacencyList, p.1 ∈ g.nodes) ∧
  (∀ p ∈ g.adjacencyList, ∀ v ∈ p.2, v ∈ g.nodes)

/-- The directed edge `(u, v)` is recorded. -/
def hasDirectedEdge (g : WayfindingGraph) (u v : String) : Bool :=
  (getNeighbors g u).contains v

/-- All recorded directed edges, one pair per adjacency entry. -/
def directedEdges (g : WayfindingGraph) : List (String × String) :=
  g.adjacencyList.flatMap (fun p => p.2.map (fun v => (p.1, v)))

/-- A directed edge whose reverse is also recorded (and which is not
a self-loop): one direction of a bidirectional edge. -/
def symEdge (g : WayfindingGraph) (p : String × String) : Bool :=
  !(p.1 == p.2) && hasDirectedEdge g p.2 p.1

/-- The bidirectional edges, each unordered pair counted once
(represented by its `<`-sorted orientation). -/
def bidirPairs (g : WayfindingGraph) : List (String × String) :=
  (g.nodes.product g.nodes).filter
    (fun p => decide (p.1 < p.2) && hasDirectedEdge g p.1 p.2 &&
      hasDirectedEdge g p.2 p.1)

/-- The directed edges that are not one direction of a bidirectional
pair: self-loops and edges recorded in a single direction. -/
def onewayEdges (g : WayfindingGraph) : List (String × String) :=
  (directedEdges g).filter
    (fun p => p.1 == p.2 || !(hasDirectedEdge g p.2 p.1))

theorem lookup_mem {β : Type} :
    ∀ {l : List (String × β)} {k : String} {b : β},
      List.lookup k l = some b → (k, b) ∈ l := by
  intro l
  induction l with
  | nil => intro k b h; simp [List.lookup] at h
  | cons hd rest ih =>
    intro k b h
    obtain ⟨k', v'⟩ := hd
    by_cases hk : (k == k') = true
    · rw [List.lookup, hk] at h
      injection h with h
      subst h
      have : k = k' := by simpa using hk
      subst this
      exact List.mem_cons_self _ _
    · rw [List.lookup, Bool.of_not_eq_true hk] at h
      exact List.mem_cons_of_mem _ (ih h)

theorem lookup_of_mem_keys_nodup {β : Type} :
    ∀ {l : List (String × β)} {k : String} {b : β},
      (l.map (·.1)).Nodup → (k, b) ∈ l → List.lookup k l = some b := by
  intro l
  induction l with
  | nil => intro k b _ h; simp at h
  | cons hd rest ih =>
    intro k b hnd hmem
    obtain ⟨k', v'⟩ := hd
    simp only [List.map_cons, List.nodup_cons] at hnd
    rcases List.mem_cons.mp hmem with heq | htl
    · obtain ⟨rfl, rfl⟩ := Prod.mk.injEq .. ▸ heq
      simp [List.lookup]
    · have hk : k ≠ k' := by
        intro h
        subst h
        exact hnd.1 (List.mem_map_of_mem (·.1) htl)
      rw [List.lookup, beq_eq_false_iff_ne.mpr hk]
      exact ih hnd.2 htl

theorem fst_mem_keys_of_mem_directedEdges :
    ∀ (l : List (String × List String)) (u v : String),
      (u, v) ∈ l.flatMap (fun p => p.2.map (fun w => (p.1, w))) →
      u ∈ l.map (·.1) := by
  intro l u v h
  obtain ⟨p, hp, hm⟩ := List.mem_flatMap.mp h
  obtain ⟨w, -, hw⟩ := List.mem_map.mp hm
  obtain ⟨h1, -⟩ := Prod.mk.injEq .. ▸ hw
  exact h1 ▸ List.mem_map_of_mem (·.1) hp

theorem mem_directedEdges_of_hasDirectedEdge (g : WayfindingGraph)
    (u v : String) (h : hasDirectedEdge g u v = true) :
    (u, v) ∈ directedEdges g := by
  unfold hasDirectedEdge getNeighbors at h
  rcases hlk : List.lookup u g.adjacencyList with - | ns
  · rw [hlk] at h
    simp at h
  · rw [hlk] at h
    have hv : v ∈ ns := by simpa [List.elem_iff] using h
    exact List.mem_flatMap.mpr ⟨(u, ns), lookup_mem hlk,
      List.mem_map.mpr ⟨v, hv, rfl⟩⟩

theorem hasDirectedEdge_of_mem_directedEdges (g : WayfindingGraph)
    (hadj : (g.adjacencyList.map (·.1)).Nodup) (u v : String)
    (h : (u, v) ∈ directedEdges g) : hasDirectedEdge g u v = true := by
  obtain ⟨p, hp, hm⟩ := List.mem_flatMap.mp h
  obtain ⟨w, hw, hweq⟩ := List.mem_map.mp hm
  obtain ⟨h1, h2⟩ := Prod.mk.injEq .. ▸ hweq
  subst h2
  rw [← h1]
  have hlk : List.lookup p.1 g.adjacencyList = some p.2 :=
    lookup_of_mem_keys_nodup hadj hp
  unfold hasDirectedEdge getNeighbors
  rw [hlk]
  simpa [List.elem_iff] using hw

theorem mem_nodes_of_mem_directedEdges (g : WayfindingGraph)
    (hwf : WellFormed g) (u v : String) (h : (u, v) ∈ directedEdges g) :
    u ∈ g.nodes ∧ v ∈ g.nodes := by
  obtain ⟨p, hp, hm⟩ := List.mem_flatMap.mp h
  obtain ⟨w, hw, hweq⟩ := List.mem_map.mp hm
  obtain ⟨h1, h2⟩ := Prod.mk.injEq .. ▸ hweq
  subst h1
  subst h2
  exact ⟨hwf.2.2.2.2.1 p hp, hwf.2.2.2.2.2 p hp w hw⟩

theorem nodup_directedEdges :
    ∀ (l : List (String × List String)), (l.map (·.1)).Nodup →
      (∀ p ∈ l, p.2.Nodup) →
      (l.flatMap (fun p => p.2.map (fun w => (p.1, w)))).Nodup := by
  intro l
  induction l with
  | nil => intro _ _; simp
  | cons hd rest ih =>
    intro hkeys hvals
    obtain ⟨k, ns⟩ := hd
    simp only [List.map_cons, List.nodup_cons] at hkeys
    rw [List.flatMap_cons]
    refine List.Nodup.append ?_ (ih hkeys.2 fun p hp =>
      hvals p (List.mem_cons_of_mem _ hp)) ?_
    · exact (hvals (k, ns) (List.mem_cons_self _ _)).map
        (fun a b hab => by simpa using hab)
    · intro x hx1 hx2
      obtain ⟨w, -, hw⟩ := List.mem_map.mp hx1
      have hx1k : x.1 = k := by rw [← hw]
      refine hkeys.1 ?_
      have hmem := fst_mem_keys_of_mem_directedEdges rest x.1 x.2 (by simpa using hx2)
      rwa [hx1k] at hmem

theorem typeCountFold_eq_count (vals : List NodeType) (ty : NodeType) :
    typeCountFold vals ty = vals.count ty := by
  suffices h : ∀ (f : NodeType → Nat),
      (vals.foldl (fun acc v => fun x => if x = v then acc x + 1 else acc x) f) ty
        = f ty + vals.count ty by
    simpa [typeCountFold] using h (fun _ => 0)
  induction vals with
  | nil => intro f; simp
  | cons v vs ih =>
    intro f
    rw [List.foldl_cons, ih, List.count_cons]
    by_cases hv : ty = v
    · subst hv
      simp only [if_pos rfl, beq_self_eq_true, if_true]
      omega
    · rw [if_neg hv, if_neg (by simpa using fun h => hv h.symm)]
      omega

theorem count_values_eq_filter_keys :
    ∀ (l : List (String × NodeType)), (l.map (·.1)).Nodup → ∀ ty : NodeType,
      (l.map (·.2)).count ty =
      ((l.map (·.1)).filter
        (fun k => (List.lookup k l).getD .unknown = ty)).length := by
  intro l
  induction l with
  | nil => intro _ ty; simp
  | cons hd rest ih =>
    intro hnd ty
    obtain ⟨k, v⟩ := hd
    simp only [List.map_cons, List.nodup_cons] at hnd
    rw [List.map_cons, List.map_cons, List.filter_cons, List.count_cons]
    have hpred : ∀ x ∈ rest.map (·.1),
        (decide ((List.lookup x ((k, v) :: rest)).getD .unknown = ty))
          = (decide ((List.lookup x rest).getD .unknown = ty)) := by
      intro x hx
      have hxk : x ≠ k := fun h => hnd.1 (h ▸ hx)
      simp [List.lookup, beq_eq_false_iff_ne.mpr hxk]
    rw [List.filter_congr hpred]
    have hk : (List.lookup k ((k, v) :: rest)).getD .unknown = v := by
      simp [List.lookup]
    by_cases hv : v = ty
    · rw [if_pos (by simp [hk, hv]), if_pos (by simp [hv])]
      simp [ih hnd.2 ty]
    · rw [if_neg (by simp [hk, hv]), if_neg (by simp [hv])]
      simpa using ih hnd.2 ty

/-- Each bidirectional pair accounts for exactly two of the recorded
directed edges. -/
theorem length_filter_symEdge (g : WayfindingGraph) (hwf : WellFormed g) :
    ((directedEdges g).filter (symEdge g)).length = 2 * (bidirPairs g).length := by
  have hadj : (g.adjacencyList.map (·.1)).Nodup := hwf.2.2.1
  have hD : (directedEdges g).Nodup :=
    nodup_directedEdges g.adjacencyList hadj hwf.2.2.2.1
  have hfil : ((directedEdges g).filter (symEdge g)).Nodup := hD.filter _
  have hbp : (bidirPairs g).Nodup := (hwf.1.product hwf.1).filter _
  rw [← List.toFinset_card_of_nodup hfil, ← List.toFinset_card_of_nodup hbp]
  have hmemS : ∀ p : String × String,
      p ∈ ((directedEdges g).filter (symEdge g)).toFinset ↔
      (p ∈ directedEdges g ∧ p.1 ≠ p.2 ∧ hasDirectedEdge g p.2 p.1 = true) := by
    intro p
    rw [List.mem_toFinset, List.mem_filter]
    simp [symEdge, and_assoc]
  have hmemB : ∀ p : String × String, p ∈ (bidirPairs g).toFinset ↔
      (p.1 ∈ g.nodes ∧ p.2 ∈ g.nodes ∧ p.1 < p.2 ∧
        hasDirectedEdge g p.1 p.2 = true ∧ hasDirectedEdge g p.2 p.1 = true) := by
    intro p
    rw [List.mem_toFinset, bidirPairs, List.mem_filter]
    obtain ⟨u, v⟩ := p
    rw [List.pair_mem_product]
    simp [and_assoc]
  have hsplit : (((directedEdges g).filter (symEdge g)).toFinset.filter
        (fun p => p.1 < p.2)).card +
      (((directedEdges g).filter (symEdge g)).toFinset.filter
        (fun p => ¬ p.1 < p.2)).card =
      ((directedEdges g).filter (symEdge g)).toFinset.card :=
    Finset.filter_card_add_filter_neg_card_eq_card _
  have h1 : ((directedEdges g).filter (symEdge g)).toFinset.filter
      (fun p => p.1 < p.2) = (bidirPairs g).toFinset := by
    ext p
    rw [Finset.mem_filter, hmemS p, hmemB p]
    constructor
    · rintro ⟨⟨hmem, hne, hrev⟩, hlt⟩
      have hfwd := hasDirectedEdge_of_mem_directedEdges g hadj p.1 p.2 hmem
      have hnodes := mem_nodes_of_mem_directedEdges g hwf p.1 p.2 hmem
      exact ⟨hnodes.1, hnodes.2, hlt, hfwd, hrev⟩
    · rintro ⟨-, -, hlt, hfwd, hrev⟩
      exact ⟨⟨mem_directedEdges_of_hasDirectedEdge g p.1 p.2 hfwd,
        ne_of_lt hlt, hrev⟩, hlt⟩
  have h2 : (((directedEdges g).filter (symEdge g)).toFinset.filter
      (fun p => ¬ p.1 < p.2)).card = (bidirPairs g).toFinset.card := by
    refine Finset.card_bij (fun p _ => Prod.swap p) ?_ ?_ ?_
    · intro p hp
      rw [Finset.mem_filter, hmemS p] at hp
      obtain ⟨⟨hmem, hne, hrev⟩, hnlt⟩ := hp
      have hfwd := hasDirectedEdge_of_mem_directedEdges g hadj p.1 p.2 hmem
      have hnodes := mem_nodes_of_mem_directedEdges g hwf p.1 p.2 hmem
      have hlt : p.2 < p.1 := lt_of_le_of_ne (not_lt.mp hnlt) (Ne.symm hne)
      rw [hmemB]
      exact ⟨hnodes.2, hnodes.1, hlt, hrev, hfwd⟩
    · intro p1 hp1 p2 hp2 heq
      exact Prod.swap_injective heq
    · intro b hb
      rw [hmemB] at hb
      obtain ⟨h1n, h2n, hlt, hfwd, hrev⟩ := hb
      refine ⟨Prod.swap b, ?_, Prod.swap_swap b⟩
      rw [Finset.mem_filter, hmemS]
      exact ⟨⟨mem_directedEdges_of_hasDirectedEdge g b.2 b.1 hrev,
        ne_of_gt hlt, hfwd⟩, not_lt.mpr (le_of_lt hlt)⟩
  have h1c : (((directedEdges g).filter (symEdge g)).toFinset.filter
      (fun p => p.1 < p.2)).card = (bidirPairs g).toFinset.card := by
    rw [h1]
  omega

/-- C8: `getStatistics` reports the node count, the per-type
histogram of the nodes, the polygon count, and an edge total equal to
the number of bidirectional pairs (each counted once) plus half of
the remaining single-direction records. -/
theorem getStatistics_spec (g : WayfindingGraph) (hwf : WellFormed g) :
    (getStatistics g).totalNodes = g.nodes.length ∧
    (∀ ty : NodeType, (getStatistics g).typeCount ty =
      (g.nodes.filter (fun id => getNodeType g id = ty)).length) ∧
    (getStatistics g).fixturePolygonCount = g.fixturePolygons ∧
    (getStatistics g).totalEdges =
      ((bidirPairs g).length : ℚ) + ((onewayEdges g).length : ℚ) / 2 := by
  refine ⟨rfl, ?_, rfl, ?_⟩
  · intro ty
    have hkeysnd : (g.nodeTypes.map (·.1)).Nodup := by
      rw [hwf.2.1]
      exact hwf.1
    show typeCountFold (g.nodeTypes.map (·.2)) ty = _
    rw [typeCountFold_eq_count, count_values_eq_filter_keys g.nodeTypes hkeysnd ty,
      hwf.2.1]
    rfl
  · show ((((g.adjacencyList.map (fun p => p.2.length)).sum : ℕ) : ℚ)) / 2 = _
    have hlen : (g.adjacencyList.map (fun p => p.2.length)).sum =
        (directedEdges g).length := by
      rw [directedEdges, List.length_flatMap]
      congr 1
      simp [Function.comp]
    have hsplit : (directedEdges g).length =
        ((directedEdges g).filter (symEdge g)).length +
        ((directedEdges g).filter (fun p => !(symEdge g p))).length :=
      List.length_eq_length_filter_add (symEdge g)
    have honeway : (directedEdges g).filter (fun p => !(symEdge g p)) =
        onewayEdges g := by
      unfold onewayEdges
      apply List.filter_congr
      intro p _
      cases h1 : (p.1 == p.2) <;>
        cases h2 : hasDirectedEdge g p.2 p.1 <;>
          simp [symEdge, h1, h2]
    rw [hlen, hsplit, honeway, length_filter_symEdge g hwf]
    push_cast
    ring

instance (g : WayfindingGraph) : Decidable (WellFormed g) :=
  inferInstanceAs (Decidable (_ ∧ _ ∧ _ ∧ _ ∧ _ ∧ _))

/-- Waypoints `x – y` (bidirectional) and a one-way edge `y → z` to a
fossil. -/
def statsGraph : WayfindingGraph :=
  (addEdge (addEdge
    (addNode (addNode (addNode emptyGraph "x" .waypoint .nullV).1
      "y" .waypoint .nullV).1 "z" .fossil .nullV).1
    "x" "y" true).1 "y" "z" false).1

/-- Witness for C8 on a graph mixing a bidirectional and a
unidirectional edge. -/
theorem getStatistics_spec_witness :
    (getStatistics statsGraph).totalNodes = statsGraph.nodes.length ∧
    (getStatistics statsGraph).typeCount .waypoint =
      (statsGraph.nodes.filter
        (fun id => getNodeType statsGraph id = .waypoint)).length ∧
    (getStatistics statsGraph).totalEdges =
      ((bidirPairs statsGraph).length : ℚ) +
        ((onewayEdges statsGraph).length : ℚ) / 2 := by
  obtain ⟨h1, h2, -, h4⟩ := getStatistics_spec statsGraph (by decide)
  exact ⟨h1, h2 .waypoint, h4⟩

/-! ## C4: BFS minimality

The invariant-based argument: queue entries are discovered at their
exact `t`-free distance from the source, entry lengths are
nondecreasing with at most two levels present, and every fully
processed node has all its hop-successors visited.  Distances are
measured along reversed walks that avoid the target, because the BFS
never expands the target. -/

/-- A reversed walk from the source to `v` that avoids `t`. -/
def TWalk (g : WayfindingGraph) (allow : Bool) (exclude : List String)
    (s t v : String) (w : List String) : Prop :=
  w.head? = some v ∧ w.getLast? = some s ∧
  List.Chain' (fun a b => Hop g allow exclude b a) w ∧ t ∉ w

/-- `v` is reachable from the source by a `t`-free walk of `n` nodes. -/
def TReach (g : WayfindingGraph) (allow : Bool) (exclude : List String)
    (s t v : String) (n : Nat) : Prop :=
  ∃ w, TWalk g allow exclude s t v w ∧ w.length = n

/-- `n` is the exact `t`-free distance of `v` from the source. -/
def MinReach (g : WayfindingGraph) (allow : Bool) (exclude : List String)
    (s t v : String) (n : Nat) : Prop :=
  TReach g allow exclude s t v n ∧
  ∀ m, TReach g allow exclude s t v m → n ≤ m

theorem TWalk_decomp {g allow exclude s t v w}
    (h : TWalk g allow exclude s t v w) :
    (v = s ∧ w.length = 1) ∨
    (∃ u w2, w = v :: w2 ∧ w2.head? = some u ∧ Hop g allow exclude u v ∧
      TWalk g allow exclude s t u w2) := by
  obtain ⟨hhead, hlast, hchain, htf⟩ := h
  cases w with
  | nil => cases hhead
  | cons a w2 =>
    have ha : a = v := by simpa using hhead
    subst ha
    cases w2 with
    | nil =>
      left
      exact ⟨by simpa using hlast, rfl⟩
    | cons u w3 =>
      right
      obtain ⟨hr, hchain2⟩ := List.chain'_cons.mp hchain
      rw [List.getLast?_cons_cons] at hlast
      refine ⟨u, u :: w3, rfl, rfl, hr, rfl, hlast, hchain2, ?_⟩
      intro hmem
      exact htf (List.mem_cons_of_mem _ hmem)

/-- The BFS loop invariant for minimality. -/
structure BfsInv (g : WayfindingGraph) (allow : Bool) (exclude : List String)
    (s t : String) (Q : List (List String)) (V : List String) : Prop where
  s_mem : s ∈ V
  t_not_mem : t ∉ V
  entries : ∀ q ∈ Q, RPathFrom g allow exclude s q ∧ (∀ x ∈ q, x ∈ V) ∧
    MinReach g allow exclude s t (q.headD "") q.length
  sorted : List.Pairwise (· ≤ ·) (Q.map List.length)
  twoLevel : ∀ q ∈ Q, ∀ q0 ∈ Q.head?, q.length ≤ q0.length + 1
  processed : ∀ u ∈ V, u ∉ Q.map (fun q => q.headD "") →
    ∀ v, Hop g allow exclude u v → v ∈ V
  headsNodup : (Q.map (fun q => q.headD "")).Nodup

/-- All entries of the queue are at least as long as the front. -/
theorem BfsInv.front_min {g allow exclude s t Q V}
    (hInv : BfsInv g allow exclude s t Q V) {q0 rest}
    (hQ : Q = q0 :: rest) : ∀ q ∈ Q, q0.length ≤ q.length := by
  intro q hq
  subst hQ
  rcases List.mem_cons.mp hq with rfl | hq'
  · exact le_refl _
  · have := hInv.sorted
    rw [List.map_cons, List.pairwise_cons] at this
    exact this.1 q.length (List.mem_map_of_mem List.length hq')

/-- A node with a `t`-free distance below the front level cannot be a
queue-entry head. -/
theorem not_head_of_reach_lt {g allow exclude s t Q V}
    (hInv : BfsInv g allow exclude s t Q V) {q0 rest}
    (hQ : Q = q0 :: rest) (u : String) (n : Nat)
    (hr : TReach g allow exclude s t u n) (hn : n < q0.length) :
    u ∉ Q.map (fun q => q.headD "") := by
  intro hmem
  obtain ⟨q, hq, hqh⟩ := List.mem_map.mp hmem
  have hmin := (hInv.entries q hq).2.2
  rw [hqh] at hmin
  have h1 : q.length ≤ n := hmin.2 n hr
  have h2 : q0.length ≤ q.length := hInv.front_min hQ q hq
  omega

/-- Completeness of the visited set below the front level: every node
(t excepted, which is never visited) whose `t`-free distance is below
the length of the front entry has been visited. -/
theorem reach_visited {g allow exclude s t Q V}
    (hInv : BfsInv g allow exclude s t Q V) {q0 rest}
    (hQ : Q = q0 :: rest) :
    ∀ (n : Nat) (v : String), TReach g allow exclude s t v n →
      n < q0.length → v ∈ V := by
  intro n
  induction n using Nat.strong_induction_on with
  | _ n ih =>
    intro v hr hn
    obtain ⟨w, hw, hwl⟩ := hr
    rcases TWalk_decomp hw with ⟨rfl, -⟩ | ⟨u, w2, rfl, hh2, hhop, hw2⟩
    · exact hInv.s_mem
    · have hr2 : TReach g allow exclude s t u w2.length := ⟨w2, hw2, rfl⟩
      have hl2 : w2.length < n := by
        rw [← hwl]
        simp
      have hu : u ∈ V := ih w2.length hl2 u hr2 (lt_trans hl2 hn)
      have hnh : u ∉ Q.map (fun q => q.headD "") :=
        not_head_of_reach_lt hInv hQ u w2.length hr2 (lt_trans hl2 hn)
      exact hInv.processed u hu hnh v hhop

theorem exists_last_occ {a : String} :
    ∀ {l : List String}, a ∈ l → ∃ p q, l = p ++ a :: q ∧ a ∉ q := by
  intro l
  induction l with
  | nil => intro h; simp at h
  | cons x xs ih =>
    intro h
    by_cases hx : a ∈ xs
    · obtain ⟨p, q, rfl, hq⟩ := ih hx
      exact ⟨x :: p, q, rfl, hq⟩
    · rcases List.mem_cons.mp h with rfl | h'
      · exact ⟨[], xs, rfl, hx⟩
      · exact absurd h' hx

/-- A newly discovered neighbor of the front entry sits at exact
distance one more than the front level. -/
theorem minreach_new {g allow exclude s t Q V}
    (hInv : BfsInv g allow exclude s t Q V) {q0 rest}
    (hQ : Q = q0 :: rest) (v : String) (hv : v ∉ V) (hvt : v ≠ t)
    (hhop : Hop g allow exclude (q0.headD "") v) :
    MinReach g allow exclude s t v (q0.length + 1) := by
  have hq0 := hInv.entries q0 (hQ ▸ List.mem_cons_self q0 rest)
  obtain ⟨⟨hlast, hchain⟩, hsub, -⟩ := hq0
  have hne : q0 ≠ [] := RPathFrom_ne_nil ⟨hlast, hchain⟩
  have hq0head : q0.head? = some (q0.headD "") := by
    cases q0 with
    | nil => exact absurd rfl hne
    | cons a q' => rfl
  constructor
  · refine ⟨v :: q0, ⟨rfl, ?_, ?_, ?_⟩, by simp⟩
    · obtain ⟨a, q', rfl⟩ := List.exists_cons_of_ne_nil hne
      rw [List.getLast?_cons_cons]
      exact hlast
    · refine hchain.cons' ?_
      intro y hy
      rw [hq0head] at hy
      have hyv : y = q0.headD "" := by simpa using hy.symm
      rw [hyv]
      exact hhop
    · intro hmem
      rcases List.mem_cons.mp hmem with rfl | hmem'
      · exact hvt rfl
      · exact hInv.t_not_mem (hsub t hmem')
  · intro m hm
    by_contra hcon
    push_neg at hcon
    have hmle : m ≤ q0.length := by omega
    obtain ⟨w, hw, hwl⟩ := hm
    rcases TWalk_decomp hw with ⟨rfl, -⟩ | ⟨u, w2, rfl, hh2, hhopu, hw2⟩
    · exact hv hInv.s_mem
    · have hr2 : TReach g allow exclude s t u w2.length := ⟨w2, hw2, rfl⟩
      have hlt : w2.length < q0.length := by
        have : w2.length + 1 = m := by simpa using hwl
        omega
      have hu : u ∈ V := reach_visited hInv hQ w2.length u hr2 hlt
      have hnh : u ∉ Q.map (fun q => q.headD "") :=
        not_head_of_reach_lt hInv hQ u w2.length hr2 hlt
      exact hv (hInv.processed u hu hnh v hhopu)

/-- The claim's notion of a constrained walk from `s` to `t` (forward
orientation). -/
def ValidWalk (g : WayfindingGraph) (allow : Bool) (exclude : List String)
    (s t : String) (w : List String) : Prop :=
  w.head? = some s ∧ w.getLast? = some t ∧
  List.Chain' (Hop g allow exclude) w

instance (g : WayfindingGraph) (allow : Bool) (exclude : List String)
    (s t : String) (w : List String) :
    Decidable (ValidWalk g allow exclude s t w) :=
  inferInstanceAs (Decidable (_ ∧ _ ∧ _))

/-- When the front entry can hop onto the target, every valid walk
from `s` to `t` has more nodes than the front entry. -/
theorem return_min {g allow exclude s t Q V}
    (hInv : BfsInv g allow exclude s t Q V) {q0 rest}
    (hQ : Q = q0 :: rest) (hst : s ≠ t) :
    ∀ w, ValidWalk g allow exclude s t w → q0.length + 1 ≤ w.length := by
  intro w hw
  by_contra hcon
  push_neg at hcon
  have hwle : w.length ≤ q0.length := by omega
  obtain ⟨hwh, hwl, hwc⟩ := hw
  -- reverse the walk and cut at the last occurrence of `t`
  have hrh : w.reverse.head? = some t := by rw [List.head?_reverse]; exact hwl
  have hrl : w.reverse.getLast? = some s := by rw [List.getLast?_reverse]; exact hwh
  have hrc : List.Chain' (fun a b => Hop g allow exclude b a) w.reverse :=
    List.chain'_reverse.mpr (by simpa [flip] using hwc)
  have htmem : t ∈ w.reverse := by
    cases hw : w.reverse with
    | nil => rw [hw] at hrh; cases hrh
    | cons a l =>
      rw [hw] at hrh
      have : a = t := by simpa using hrh
      exact this ▸ List.mem_cons_self a l
  obtain ⟨pre, suf, hsplit, hnsuf⟩ := exists_last_occ htmem
  have hsufl : (t :: suf).getLast? = some s := by
    rw [hsplit, List.getLast?_append_of_ne_nil pre (by simp)] at hrl
    exact hrl
  have hsufc : List.Chain' (fun a b => Hop g allow exclude b a) (t :: suf) := by
    rw [hsplit] at hrc
    exact hrc.right_of_append
  cases suf with
  | nil => exact hst (by simpa using hsufl.symm)
  | cons u suf' =>
    obtain ⟨hhop, hchain2⟩ := List.chain'_cons.mp hsufc
    rw [List.getLast?_cons_cons] at hsufl
    have hw2 : TWalk g allow exclude s t u (u :: suf') :=
      ⟨rfl, hsufl, hchain2, hnsuf⟩
    have hr2 : TReach g allow exclude s t u (u :: suf').length :=
      ⟨u :: suf', hw2, rfl⟩
    have hlen : (u :: suf').length < q0.length := by
      have h1 : w.reverse.length = pre.length + (u :: suf').length + 1 := by
        rw [hsplit]
        simp
        omega
      have h2 : w.reverse.length = w.length := by simp
      omega
    have hu : u ∈ V := reach_visited hInv hQ _ u hr2 hlen
    have hnh : u ∉ Q.map (fun q => q.headD "") :=
      not_head_of_reach_lt hInv hQ u _ hr2 hlen
    exact hInv.t_not_mem (hInv.processed u hu hnh t hhop)

theorem headD_mem {q : List String} (h : q ≠ []) : q.headD "" ∈ q := by
  cases q with
  | nil => exact absurd rfl h
  | cons a q' => exact List.mem_cons_self a q'

/-- The invariant maintained across one neighbor scan of the front
entry `q0` (`Qacc`/`Vacc` are the queue and visited set including the
extensions made so far during the scan). -/
structure ScanInv (g : WayfindingGraph) (allow : Bool) (exclude : List String)
    (s t : String) (q0 : List String) (rest Qacc : List (List String))
    (V Vacc : List String) : Prop where
  base : BfsInv g allow exclude s t (q0 :: rest) V
  vsub : ∀ x ∈ V, x ∈ Vacc
  t_not : t ∉ Vacc
  s_mem : s ∈ Vacc
  entries : ∀ q ∈ Qacc, RPathFrom g allow exclude s q ∧ (∀ x ∈ q, x ∈ Vacc) ∧
    MinReach g allow exclude s t (q.headD "") q.length
  sorted : List.Pairwise (· ≤ ·) (Qacc.map List.length)
  bounds : ∀ q ∈ Qacc, q0.length ≤ q.length ∧ q.length ≤ q0.length + 1
  processed : ∀ u ∈ Vacc, u ∉ (q0.headD "") :: Qacc.map (fun q => q.headD "") →
    ∀ v, Hop g allow exclude u v → v ∈ Vacc
  headsNodup : (Qacc.map (fun q => q.headD "")).Nodup
  head_not : (q0.headD "") ∉ Qacc.map (fun q => q.headD "")

/-- The neighbor scan: a returned path is the target appended to the
front entry, and otherwise the new queue and visited set re-establish
the full loop invariant. -/
theorem scan_spec {g : WayfindingGraph} {allow : Bool} {exclude : List String}
    {s t : String} {q0 : List String} {rest : List (List String)}
    {V : List String} :
    ∀ (ns : List String) (Qacc : List (List String)) (Vacc : List String),
      ScanInv g allow exclude s t q0 rest Qacc V Vacc →
      (∀ n ∈ ns, n ∈ getNeighbors g (q0.headD "")) →
      (∀ v, Hop g allow exclude (q0.headD "") v → v ∈ ns ∨ v ∈ Vacc) →
      (∀ p q2 v2,
        visitNeighbors g t allow exclude (getNodeType g (q0.headD "")) q0
          ns Qacc Vacc = (some p, q2, v2) →
        p = t :: q0 ∧ Hop g allow exclude (q0.headD "") t) ∧
      (∀ q2 v2,
        visitNeighbors g t allow exclude (getNodeType g (q0.headD "")) q0
          ns Qacc Vacc = (none, q2, v2) →
        BfsInv g allow exclude s t q2 v2) := by
  intro ns
  induction ns with
  | nil =>
    intro Qacc Vacc hSI hns hprog
    refine ⟨fun p q2 v2 h => by simp [visitNeighbors] at h, fun q2 v2 h => ?_⟩
    simp only [visitNeighbors, Prod.mk.injEq] at h
    obtain ⟨-, hq2, hv2⟩ := h
    subst hq2
    subst hv2
    refine ⟨hSI.s_mem, hSI.t_not, hSI.entries, hSI.sorted, ?_, ?_, hSI.headsNodup⟩
    · intro q hq qh hqh
      have h1 := (hSI.bounds q hq).2
      have h2 := (hSI.bounds qh (List.mem_of_mem_head? hqh)).1
      omega
    · intro u hu hnotu v hhop
      by_cases hu0 : u = q0.headD ""
      · subst hu0
        rcases hprog v hhop with hmem | hmem
        · simp at hmem
        · exact hmem
      · exact hSI.processed u hu (by
          intro hmem
          rcases List.mem_cons.mp hmem with h | h
          · exact hu0 h
          · exact hnotu h) v hhop
  | cons n ns' ih =>
    intro Qacc Vacc hSI hns hprog
    by_cases h1 : (Vacc.contains n || exclude.contains n) = true
    · have hstep : visitNeighbors g t allow exclude
          (getNodeType g (q0.headD "")) q0 (n :: ns') Qacc Vacc =
          visitNeighbors g t allow exclude
            (getNodeType g (q0.headD "")) q0 ns' Qacc Vacc := by
        simp only [visitNeighbors]
        rw [if_pos h1]
      rw [hstep]
      refine ih Qacc Vacc hSI (fun m hm => hns m (List.mem_cons_of_mem n hm)) ?_
      intro v hhop
      rcases hprog v hhop with hmem | hmem
      · rcases List.mem_cons.mp hmem with rfl | hmem'
        · simp only [Bool.or_eq_true, List.elem_iff] at h1
          rcases h1 with hvis | hexc
          · exact Or.inr hvis
          · exact absurd hexc hhop.2.2
        · exact Or.inl hmem'
      · exact Or.inr hmem
    · by_cases h2 : canVisitNeighbor (getNodeType g (q0.headD ""))
          (getNodeType g n) allow = true
      · have hhopn : Hop g allow exclude (q0.headD "") n := by
          refine ⟨hns n (List.mem_cons_self n ns'), h2, fun hmem => ?_⟩
          simp only [Bool.or_eq_true, List.elem_iff] at h1
          exact h1 (Or.inr hmem)
        by_cases h3 : n = t
        · have hstep : visitNeighbors g t allow exclude
              (getNodeType g (q0.headD "")) q0 (n :: ns') Qacc Vacc =
              (some (n :: q0), Qacc, Vacc) := by
            simp only [visitNeighbors]
            rw [if_neg h1, if_neg (by simpa using h2), if_pos h3]
          rw [hstep]
          refine ⟨fun p q2 v2 h => ?_, fun q2 v2 h => by simp at h⟩
          obtain ⟨hp, -, -⟩ := Prod.mk.injEq .. ▸ h
          injection hp with hp
          exact ⟨hp ▸ h3 ▸ rfl, h3 ▸ hhopn⟩
        · have hstep : visitNeighbors g t allow exclude
              (getNodeType g (q0.headD "")) q0 (n :: ns') Qacc Vacc =
              visitNeighbors g t allow exclude
                (getNodeType g (q0.headD "")) q0 ns'
                (Qacc ++ [n :: q0]) (Vacc ++ [n]) := by
            simp only [visitNeighbors]
            rw [if_neg h1, if_neg (by simpa using h2), if_neg h3]
          rw [hstep]
          have hnV : n ∉ Vacc := by
            intro hmem
            refine absurd ?_ h1
            simp only [Bool.or_eq_true, List.elem_iff]
            exact Or.inl hmem
          have hq0props := hSI.base.entries q0 (List.mem_cons_self q0 rest)
          have hq0ne : q0 ≠ [] := RPathFrom_ne_nil hq0props.1
          have hu0Vacc : q0.headD "" ∈ Vacc :=
            hSI.vsub _ (hq0props.2.1 _ (headD_mem hq0ne))
          have hSI' : ScanInv g allow exclude s t q0 rest
              (Qacc ++ [n :: q0]) V (Vacc ++ [n]) := by
            refine ⟨hSI.base, ?_, ?_, ?_, ?_, ?_, ?_, ?_, ?_, ?_⟩
            · exact fun x hx => List.mem_append_left _ (hSI.vsub x hx)
            · intro hmem
              rcases List.mem_append.mp hmem with hl | hr
              · exact hSI.t_not hl
              · have htn : t = n := by simpa using hr
                exact h3 htn.symm
            · exact List.mem_append_left _ hSI.s_mem
            · intro q hq
              rcases List.mem_append.mp hq with hl | hr
              · obtain ⟨hr1, hr2, hr3⟩ := hSI.entries q hl
                exact ⟨hr1, fun x hx => List.mem_append_left _ (hr2 x hx), hr3⟩
              · obtain rfl : q = n :: q0 := by simpa using hr
                refine ⟨RPathFrom_cons hq0props.1 hhopn, ?_, ?_⟩
                · intro x hx
                  rcases List.mem_cons.mp hx with rfl | hx'
                  · exact List.mem_append_right _ (List.mem_singleton_self x)
                  · exact List.mem_append_left _
                      (hSI.vsub x (hq0props.2.1 x hx'))
                · have : (n :: q0).headD "" = n := rfl
                  rw [this]
                  have hlen : (n :: q0).length = q0.length + 1 := by simp
                  rw [hlen]
                  refine minreach_new hSI.base rfl n ?_ h3 hhopn
                  intro hmem
                  exact hnV (hSI.vsub n hmem)
            · rw [List.map_append, List.pairwise_append]
              refine ⟨hSI.sorted, by simp, ?_⟩
              intro a ha b hb
              obtain ⟨q, hq, rfl⟩ := List.mem_map.mp ha
              have hbl : b = (n :: q0).length := by simpa using hb
              rw [hbl]
              have := (hSI.bounds q hq).2
              simp only [List.length_cons]
              omega
            · intro q hq
              rcases List.mem_append.mp hq with hl | hr
              · exact hSI.bounds q hl
              · obtain rfl : q = n :: q0 := by simpa using hr
                simp
            · intro u hu hnotu v hhop
              rcases List.mem_append.mp hu with hl | hr
              · refine List.mem_append_left _ (hSI.processed u hl ?_ v hhop)
                intro hmem
                refine hnotu ?_
                rcases List.mem_cons.mp hmem with rfl | hmem'
                · exact List.mem_cons_self _ _
                · refine List.mem_cons_of_mem _ ?_
                  rw [List.map_append]
                  exact List.mem_append_left _ hmem'
              · obtain rfl : u = n := by simpa using hr
                exfalso
                refine hnotu (List.mem_cons_of_mem _ ?_)
                rw [List.map_append]
                refine List.mem_append_right _ ?_
                simp
            · rw [List.map_append]
              refine List.Nodup.append hSI.headsNodup (by simp) ?_
              intro x hx1 hx2
              obtain ⟨q, hq, hfx⟩ := List.mem_map.mp hx1
              have hx : x = n := by simpa using hx2
              have hhm : q.headD "" ∈ Vacc :=
                (hSI.entries q hq).2.1 _
                  (headD_mem (RPathFrom_ne_nil (hSI.entries q hq).1))
              rw [hfx, hx] at hhm
              exact hnV hhm
            · rw [List.map_append]
              intro hmem
              rcases List.mem_append.mp hmem with hl | hr
              · exact hSI.head_not hl
              · have : q0.headD "" = n := by simpa using hr
                exact hnV (this ▸ hu0Vacc)
          refine ih (Qacc ++ [n :: q0]) (Vacc ++ [n]) hSI'
            (fun m hm => hns m (List.mem_cons_of_mem n hm)) ?_
          intro v hhop
          rcases hprog v hhop with hmem | hmem
          · rcases List.mem_cons.mp hmem with rfl | hmem'
            · exact Or.inr (List.mem_append_right _ (List.mem_singleton_self v))
            · exact Or.inl hmem'
          · exact Or.inr (List.mem_append_left _ hmem)
      · have hstep : visitNeighbors g t allow exclude
            (getNodeType g (q0.headD "")) q0 (n :: ns') Qacc Vacc =
            visitNeighbors g t allow exclude
              (getNodeType g (q0.headD "")) q0 ns' Qacc Vacc := by
          simp only [visitNeighbors]
          rw [if_neg h1, if_pos (by simpa using h2)]
        rw [hstep]
        refine ih Qacc Vacc hSI (fun m hm => hns m (List.mem_cons_of_mem n hm)) ?_
        intro v hhop
        rcases hprog v hhop with hmem | hmem
        · rcases List.mem_cons.mp hmem with rfl | hmem'
          · exact absurd hhop.2.1 h2
          · exact Or.inl hmem'
        · exact Or.inr hmem

/-- Whatever the fuel, a path returned by the BFS loop is at most as
long as any valid walk from the source to the target. -/
theorem bfsLoop_min (g : WayfindingGraph) (allow : Bool) (exclude : List String)
    (s t : String) :
    ∀ (fuel : Nat) (Q : List (List String)) (V : List String),
      BfsInv g allow exclude s t Q V →
      ∀ p, bfsLoop g t allow exclude fuel Q V = some p →
      ∀ w, ValidWalk g allow exclude s t w → p.length ≤ w.length := by
  intro fuel
  induction fuel with
  | zero => intro Q V _ p h; simp [bfsLoop] at h
  | succ fuel ih =>
    intro Q V hInv p h w hw
    cases Q with
    | nil => simp [bfsLoop] at h
    | cons q0 rest =>
      have hSI : ScanInv g allow exclude s t q0 rest rest V V := by
        refine ⟨hInv, fun x hx => hx, hInv.t_not_mem, hInv.s_mem,
          fun q hq => hInv.entries q (List.mem_cons_of_mem _ hq), ?_, ?_, ?_, ?_, ?_⟩
        · have := hInv.sorted
          rw [List.map_cons, List.pairwise_cons] at this
          exact this.2
        · intro q hq
          refine ⟨hInv.front_min rfl q (List.mem_cons_of_mem _ hq), ?_⟩
          exact hInv.twoLevel q (List.mem_cons_of_mem _ hq) q0 rfl
        · intro u hu hnotu v hhop
          refine hInv.processed u hu ?_ v hhop
          rw [List.map_cons]
          exact hnotu
        · have := hInv.headsNodup
          rw [List.map_cons, List.nodup_cons] at this
          exact this.2
        · have := hInv.headsNodup
          rw [List.map_cons, List.nodup_cons] at this
          exact this.1
      have hscan := scan_spec (getNeighbors g (q0.headD "")) rest V hSI
        (fun m hm => hm) (fun v hhop => Or.inl hhop.1)
      rcases hr : visitNeighbors g t allow exclude
          (getNodeType g (q0.headD "")) q0 (getNeighbors g (q0.headD ""))
          rest V with ⟨res1, q2, v2⟩
      rw [bfsLoop, hr] at h
      cases res1 with
      | some p' =>
        simp only at h
        injection h with h
        obtain ⟨hpe, -⟩ := hscan.1 p' q2 v2 hr
        have hst : s ≠ t := fun he => hInv.t_not_mem (he ▸ hInv.s_mem)
        have hmin := return_min hInv rfl hst w hw
        subst h
        rw [hpe]
        simpa using hmin
      | none =>
        simp only at h
        exact ih q2 v2 (hscan.2 q2 v2 hr) p h w hw

/-- C4 (BFS minimality): whenever `findPath` returns a path, that
path has at most as many nodes as any walk from the source to the
target that respects the routing predicate at each hop and avoids
`excludeNodes`.  This holds unconditionally on `maxDepth`: exhausting
the iteration budget can only turn a result into `none`, never into a
longer path, so the claim's hypothesis (counter not reaching
`maxDepth`) is subsumed. -/
theorem findPath_minimal (g : WayfindingGraph) (s t : String) (o : PathOptions)
    (p : List String) (h : findPath g s t o = .ok (some p)) :
    ∀ w, ValidWalk g o.allowDirectFixtureConnections o.excludeNodes s t w →
      p.length ≤ w.length := by
  intro w hw
  unfold findPath at h
  by_cases hs : hasNode g s = true
  · rw [if_neg (by simp [hs])] at h
    by_cases ht : hasNode g t = true
    · rw [if_neg (by simp [ht])] at h
      by_cases hst : s = t
      · rw [if_pos hst] at h
        injection h with h
        injection h with h
        subst h
        have hne : w ≠ [] := by
          intro he
          rw [he] at hw
          cases hw.1
        have hpos : 0 < w.length := List.length_pos.mpr hne
        simpa using hpos
      · rw [if_neg hst] at h
        injection h with h
        obtain ⟨q, hq, hqr⟩ := Option.map_eq_some'.mp h
        have hInit : BfsInv g o.allowDirectFixtureConnections o.excludeNodes
            s t [[s]] [s] := by
          refine ⟨List.mem_singleton_self s, ?_, ?_, by simp, ?_, ?_, by simp⟩
          · intro hmem
            exact hst ((List.mem_singleton.mp hmem).symm)
          · intro q' hq'
            obtain rfl : q' = [s] := List.mem_singleton.mp hq'
            refine ⟨⟨rfl, List.chain'_singleton s⟩, fun x hx => hx, ?_, ?_⟩
            · refine ⟨[s], ⟨rfl, rfl, List.chain'_singleton s, ?_⟩, rfl⟩
              intro hmem
              exact hst ((List.mem_singleton.mp hmem).symm)
            · intro m hm
              obtain ⟨w', hw', hwl⟩ := hm
              have hne' : w' ≠ [] := by
                intro he
                rw [he] at hw'
                cases hw'.1
              have hpos : 0 < w'.length := List.length_pos.mpr hne'
              have hm1 : 1 ≤ m := by omega
              simpa using hm1
          · intro q' hq' q0' hq0'
            obtain rfl : q' = [s] := List.mem_singleton.mp hq'
            have h0 : [s] = q0' := by simpa using hq0'
            simp [← h0]
          · intro u hu hnotu v hhop
            obtain rfl : u = s := List.mem_singleton.mp hu
            exact absurd (by simp) hnotu
        have := bfsLoop_min g o.allowDirectFixtureConnections o.excludeNodes
          s t o.maxDepth [[s]] [s] hInit q hq w hw
        rw [← hqr]
        simpa using this
    · rw [if_pos (by simp [ht])] at h
      cases h
  · rw [if_pos (by simp [hs])] at h
    cases h

/-- Witness for C4: on the diamond graph the returned 3-node path is
no longer than a valid 5-node detour walk. -/
theorem findPath_minimal_witness :
    (["s", "p", "t"] : List String).length ≤
      (["s", "p", "s", "q", "t"] : List String).length :=
  findPath_minimal diamondGraph "s" "t" ⟨false, 100, []⟩ ["s", "p", "t"] rfl
    ["s", "p", "s", "q", "t"]
    ⟨rfl, rfl,
      List.chain'_cons.mpr ⟨⟨by decide, by decide, by decide⟩,
        List.chain'_cons.mpr ⟨⟨by decide, by decide, by decide⟩,
          List.chain'_cons.mpr ⟨⟨by decide, by decide, by decide⟩,
            List.chain'_cons.mpr ⟨⟨by decide, by decide, by decide⟩,
              List.chain'_singleton "t"⟩⟩⟩⟩⟩

end Wayfinding
